import Mathlib

/-!
Verification of the DMMR hybrid memory store and spreading-activation engine.

Shallow embedding of the in-memory backends of `src/dmmr/memory_systems.py`,
of `src/dmmr/activation_engine.py` and of the metadata component of
`src/dmmr/score_calculator.py`.  Python floats are modelled by `ℚ` for the
graph/activation arithmetic and by `ℝ` for the fallback embedding and cosine
similarity (which use `sqrt` and `sin`).  Python dicts are modelled as
insertion-ordered association lists with unique keys; `d[k] = v` keeps the
position of an existing key and appends a new key at the end, exactly as
Python dicts do.
-/

namespace DMMR

/-- Lookup in an insertion-ordered association list (Python `d.get(k)`). -/
def dictGet {α : Type} : List (String × α) → String → Option α
  | [], _ => none
  | (k', v) :: rest, k => if k' = k then some v else dictGet rest k

/-- Update of an insertion-ordered association list (Python `d[k] = v`):
an existing key keeps its position, a new key is appended at the end. -/
def dictSet {α : Type} : List (String × α) → String → α → List (String × α)
  | [], k, v => [(k, v)]
  | (k', v') :: rest, k, v =>
    if k' = k then (k, v) :: rest else (k', v') :: dictSet rest k v

/-- Graph node (`data_models.Node`); `created_at` is omitted as no claim
consults it, property values are the rationals the engine stores there. -/
structure Node where
  id : String
  label : String
  properties : List (String × ℚ)
  embedding : Option (List ℚ) := none
deriving DecidableEq

/-- Graph relationship (`data_models.Relationship`); `created_at` omitted. -/
structure Relationship where
  source_id : String
  target_id : String
  label : String
  weight : ℚ
  properties : List (String × ℚ) := []
deriving DecidableEq

/-- In-memory graph backend (`memory_systems.GraphDatabase` with
`driver = None`): a node dict plus an edge list. -/
structure GraphDB where
  nodes : List (String × Node)
  edges : List Relationship
deriving DecidableEq

def emptyGraph : GraphDB := ⟨[], []⟩

/-- `GraphDatabase.add_node` (in-memory path): `self.nodes[node.id] = node`. -/
def GraphDB.addNode (g : GraphDB) (node : Node) : GraphDB :=
  { g with nodes := dictSet g.nodes node.id node }

/-- `GraphDatabase.add_relationship` (in-memory path): `self.edges.append(rel)`.
Note that this appends unconditionally: there is no upsert by the
(source, target, label) triple on this path. -/
def GraphDB.addRelationship (g : GraphDB) (rel : Relationship) : GraphDB :=
  { g with edges := g.edges ++ [rel] }

/-- `GraphDatabase.get_node` (in-memory path). -/
def GraphDB.getNode (g : GraphDB) (nodeId : String) : Option Node :=
  dictGet g.nodes nodeId

/-- `GraphDatabase._get_weighted_neighbors_memory`: scans the edge list; an
edge contributes its other endpoint when that endpoint is stored, regardless
of edge direction (the `elif` branch makes the traversal undirected). -/
def GraphDB.getWeightedNeighbors (g : GraphDB) (nodeId : String) : List (Node × ℚ) :=
  g.edges.filterMap fun e =>
    match (if e.source_id = nodeId then dictGet g.nodes e.target_id else none) with
    | some n => some (n, e.weight)
    | none =>
      match (if e.target_id = nodeId then dictGet g.nodes e.source_id else none) with
      | some n => some (n, e.weight)
      | none => none

/-- `activation_engine.ActivationCache`; values are kept abstract in `α`.
`maxSize` is the configured capacity. -/
structure ActivationCache (α : Type) where
  cache : List (String × α)
  maxSize : ℕ

/-- `ActivationCache.evict`: deletes the first `int(max_size * 0.2)` keys of
the dict, i.e. the oldest fifth (in insertion order) of the entries.  For
every capacity that fits in a float, `int(max_size * 0.2) = max_size / 5`
with natural (floor) division, which is how it is rendered here. -/
def ActivationCache.evict {α : Type} (c : ActivationCache α) : ActivationCache α :=
  { c with cache := c.cache.drop (c.maxSize / 5) }

/-- `ActivationCache.set`: evicts first when the cache already holds at least
`max_size` entries (even when the key being set is already present), then
stores the entry. -/
def ActivationCache.set {α : Type} (c : ActivationCache α) (key : String) (value : α) :
    ActivationCache α :=
  let c' := if c.maxSize ≤ c.cache.length then c.evict else c
  { c' with cache := dictSet c'.cache key value }

/-- A sequence of `set` operations, oldest first. -/
def ActivationCache.setMany {α : Type} (c : ActivationCache α)
    (ops : List (String × α)) : ActivationCache α :=
  ops.foldl (fun acc p => acc.set p.1 p.2) c

/-- `data_models.TaskType`. -/
inductive TaskType where
  | generalQA
  | technicalCoding
  | emotionalCounseling
  | creativeWriting
  | educational
deriving DecidableEq

/-- `ActivationEngine._get_attention_weights`: the per-task attention map;
the final `attention_maps.get(task_type, {"default": 1.0})` yields the
one-entry default map for `general_qa`. -/
def getAttentionWeights : TaskType → List (String × ℚ)
  | .technicalCoding =>
    [("Technology", 3/2), ("Concept", 6/5), ("Problem", 13/10), ("default", 4/5)]
  | .emotionalCounseling =>
    [("Person", 3/2), ("Goal", 13/10), ("Activity", 6/5), ("default", 7/10)]
  | .creativeWriting =>
    [("Concept", 7/5), ("Activity", 6/5), ("default", 1)]
  | .educational =>
    [("Concept", 3/2), ("Technology", 6/5), ("default", 1)]
  | .generalQA => [("default", 1)]

/-- The attention multiplier actually applied by the engine:
`attention_weights.get(neighbor_node.label, 1.0)` — a missing label falls
back to the constant `1.0`, not to the entry stored under `"default"`. -/
def attentionLookup (attn : List (String × ℚ)) (label : String) : ℚ :=
  (dictGet attn label).getD 1

/-- The weight a neighbor with the given label receives under a task type. -/
def attentionWeightOf (t : TaskType) (label : String) : ℚ :=
  attentionLookup (getAttentionWeights t) label

/-- The energy-propagation formula of `spreading_activation`:
`received_energy = current_activation * decay_factor * edge_weight * attention_weight`. -/
def receivedEnergy (currentActivation decayFactor edgeWeight attentionWeight : ℚ) : ℚ :=
  currentActivation * decayFactor * edgeWeight * attentionWeight

/-- `ActivationEngine._get_all_neighbors`: semantic neighbors followed by
procedural neighbors. -/
def getAllNeighbors (sem proc : GraphDB) (nodeId : String) : List (Node × ℚ) :=
  sem.getWeightedNeighbors nodeId ++ proc.getWeightedNeighbors nodeId

/-- The BFS loop of `ActivationEngine.spreading_activation`.  State: the work
queue of `(node_id, depth)` pairs, the visited set and the transient energy
map `active_nodes`.  `fuel` bounds the number of loop iterations; the source
loop terminates because every iteration either shortens the queue or visits a
fresh node, so any large enough fuel reproduces it.  The cross-modal branch of
the source reads episodic memory but never writes the activation state (and,
as written, its `await` inside a plain `def` is a Python syntax error), so it
contributes nothing here. -/
def spreadLoop (sem proc : GraphDB) (attn : List (String × ℚ)) (decayFactor threshold : ℚ)
    (maxDepth : ℕ) :
    ℕ → List (String × ℕ) → List String → List (String × ℚ) → List (String × ℚ)
  | 0, _, _, active => active
  | _ + 1, [], _, active => active
  | fuel + 1, (currentId, depth) :: rest, visited, active =>
    if maxDepth ≤ depth ∨ currentId ∈ visited then
      spreadLoop sem proc attn decayFactor threshold maxDepth fuel rest visited active
    else
      let visited' := currentId :: visited
      let currentActivation := (dictGet active currentId).getD 0
      if currentActivation < threshold then
        spreadLoop sem proc attn decayFactor threshold maxDepth fuel rest visited' active
      else
        let next := (getAllNeighbors sem proc currentId).foldl
          (fun (acc : List (String × ℚ) × List (String × ℕ)) nb =>
            let received := receivedEnergy currentActivation decayFactor nb.2
              (attentionLookup attn nb.1.label)
            let energized := dictSet acc.1 nb.1.id ((dictGet acc.1 nb.1.id).getD 0 + received)
            let enqueued :=
              if nb.1.id ∈ visited' then acc.2 else acc.2 ++ [(nb.1.id, depth + 1)]
            (energized, enqueued))
          (active, rest)
        spreadLoop sem proc attn decayFactor threshold maxDepth fuel next.2 visited' next.1

/-- Seeding of `active_nodes` from the cues:
`self.active_nodes[node_id] = initial_energy`. -/
def seedActive (cues : List (String × ℚ)) : List (String × ℚ) :=
  cues.foldl (fun m c => dictSet m c.1 c.2) []

/-- The transient energy map at the end of the BFS of `spreading_activation`. -/
def finalEnergies (sem proc : GraphDB) (taskType : TaskType) (decayFactor threshold : ℚ)
    (maxDepth fuel : ℕ) (cues : List (String × ℚ)) : List (String × ℚ) :=
  spreadLoop sem proc (getAttentionWeights taskType) decayFactor threshold maxDepth fuel
    (cues.map fun c => (c.1, 0)) [] (seedActive cues)

/-- The sort key used by `_collect_activated_nodes`:
`n.properties.get("activation", 0)`. -/
def activationKey (n : Node) : ℚ :=
  (dictGet n.properties "activation").getD 0

/-- Result of a `spreading_activation` call: the ranked node list and the two
graph stores after the call (the node objects are shared with the stores in
the source, so storing the energy in `node.properties` updates the store). -/
structure SAResult where
  nodes : List Node
  semantic : GraphDB
  procedural : GraphDB
deriving DecidableEq

/-- `node.properties["activation"] = activation_energy` on a node object. -/
def withActivation (n : Node) (energy : ℚ) : Node :=
  { n with properties := dictSet n.properties "activation" energy }

/-- The iteration of `_collect_activated_nodes` over `active_nodes.items()`:
a node whose energy strictly exceeds the threshold is fetched (semantic store
first, then procedural), receives `properties["activation"] = energy` — which
mutates the stored node object, rendered here as a store update — and is
appended to the result. -/
def collectLoop (threshold : ℚ) :
    GraphDB → GraphDB → List (String × ℚ) → List Node × GraphDB × GraphDB
  | sem, proc, [] => ([], sem, proc)
  | sem, proc, (nodeId, energy) :: rest =>
    if threshold < energy then
      match dictGet sem.nodes nodeId with
      | some n =>
        let r := collectLoop threshold
          { sem with nodes := dictSet sem.nodes nodeId (withActivation n energy) } proc rest
        (withActivation n energy :: r.1, r.2)
      | none =>
        match dictGet proc.nodes nodeId with
        | some n =>
          let r := collectLoop threshold sem
            { proc with nodes := dictSet proc.nodes nodeId (withActivation n energy) } rest
          (withActivation n energy :: r.1, r.2)
        | none => collectLoop threshold sem proc rest
    else collectLoop threshold sem proc rest

/-- `ActivationEngine._collect_activated_nodes`: collect, then stable-sort by
descending activation energy (Python `list.sort(key=..., reverse=True)` is a
stable descending sort, matched by `insertionSort` with this relation). -/
def collectActivatedNodes (sem proc : GraphDB) (threshold : ℚ)
    (active : List (String × ℚ)) : SAResult :=
  let r := collectLoop threshold sem proc active
  ⟨r.1.insertionSort (fun a b => activationKey b ≤ activationKey a), r.2.1, r.2.2⟩

/-- `ActivationEngine.spreading_activation`: reset and seed the energy map,
run the BFS, then collect and rank the activated nodes. -/
def spreadingActivation (sem proc : GraphDB) (cues : List (String × ℚ))
    (taskType : TaskType) (decayFactor threshold : ℚ) (maxDepth fuel : ℕ) : SAResult :=
  collectActivatedNodes sem proc threshold
    (finalEnergies sem proc taskType decayFactor threshold maxDepth fuel cues)

/-- Engine state relevant to `reward_activation_path`: the two graph stores
the engine references and the transient `active_nodes` map it owns. -/
structure ActivationEngineState where
  semantic : GraphDB
  procedural : GraphDB
  activeNodes : List (String × ℚ)
deriving DecidableEq

/-- One iteration of the loop of `reward_activation_path`: a node id already
present in `active_nodes` gains `reward * (1.0 - i * 0.1)`; an absent id is
left alone. -/
def rewardStep (m : List (String × ℚ)) (nodeId : String) (i : ℕ) (reward : ℚ) :
    List (String × ℚ) :=
  if (dictGet m nodeId).isSome then
    dictSet m nodeId ((dictGet m nodeId).getD 0 + reward * (1 - (i : ℚ) / 10))
  else m

/-- The `enumerate(path_nodes)` loop of `reward_activation_path`. -/
def rewardAux (reward : ℚ) :
    List (String × ℚ) → List String → ℕ → List (String × ℚ)
  | m, [], _ => m
  | m, nodeId :: rest, i => rewardAux reward (rewardStep m nodeId i reward) rest (i + 1)

/-- `ActivationEngine.reward_activation_path`: nudges the transient energy of
the path nodes; the graph stores are not touched. -/
def rewardActivationPath (s : ActivationEngineState) (pathNodes : List String)
    (reward : ℚ) : ActivationEngineState :=
  { s with activeNodes := rewardAux reward s.activeNodes pathNodes 0 }

/-- A store is well formed when every node sits under its own id as key,
which `add_node` guarantees (`self.nodes[node.id] = node`). -/
def StoreWF (g : GraphDB) : Prop :=
  ∀ p ∈ g.nodes, (p.2).id = p.1

/-- The fixed key set of `ScoreCalculator._calculate_metadata_score`. -/
def expectedMetadataKeys : List String :=
  ["user_id", "task_type", "keywords", "context", "importance"]

/-- `ScoreCalculator._calculate_metadata_score`, as a function of the key set
of the metadata dict (the only thing the source consults): an empty metadata
dict short-circuits to `0.3`; otherwise the score is the number of expected
keys present divided by the number of indicators. -/
def calculateMetadataScore (metadataKeys : List String) : ℚ :=
  if metadataKeys.isEmpty then 3/10
  else
    let indicators := expectedMetadataKeys.map fun k => metadataKeys.contains k
    (indicators.count true : ℚ) / (indicators.length : ℚ)

/-- Concrete node used in the test scenarios; its label is listed in no
attention profile. -/
def nodeA : Node := ⟨"A", "Entity", [], none⟩

def nodeB : Node := ⟨"B", "Entity", [], none⟩

def nodeC : Node := ⟨"C", "Entity", [], none⟩

/-- The scenario graph of the spec: edges `A→B` (weight 0.9) and `B→C`
(weight 0.8), stored in the semantic graph. -/
def scenarioGraph : GraphDB :=
  (((((emptyGraph.addNode nodeA).addNode nodeB).addNode nodeC).addRelationship
    ⟨"A", "B", "REL", 9/10, []⟩).addRelationship ⟨"B", "C", "REL", 8/10, []⟩)

/-- The scenario run: `decay_factor = 0.5`, `activation_threshold = 0.1`,
task type `general_qa` (attention weight 1.0 for every label), seed
`[(A, 1.0)]`, `max_depth = 2`.  Fuel 10 exceeds the number of loop
iterations of the source BFS on this graph. -/
def scenarioEnergies : List (String × ℚ) :=
  finalEnergies scenarioGraph emptyGraph TaskType.generalQA (1/2) (1/10) 2 10 [("A", 1)]

def scenarioResult : SAResult :=
  spreadingActivation scenarioGraph emptyGraph [("A", 1)] TaskType.generalQA (1/2) (1/10) 2 10

/-- Graph holding only node `A` plus an edge whose target `"ghost"` is not a
stored node. -/
def ghostEdgeGraph : GraphDB :=
  (emptyGraph.addNode nodeA).addRelationship ⟨"A", "ghost", "REL", 1, []⟩

/-- Graph holding nodes `A` and `B` and, after two `add_relationship` calls
with the same `(source, target, label)` triple, two parallel edges. -/
def duplicateEdgeGraph : GraphDB :=
  (((emptyGraph.addNode nodeA).addNode nodeB).addRelationship
    ⟨"A", "B", "KNOWS", 9/10, []⟩).addRelationship ⟨"A", "B", "KNOWS", 1/2, []⟩

/-- Engine state for the path-reward witness. -/
def rewardStateExample : ActivationEngineState :=
  ⟨emptyGraph, emptyGraph, [("A", 1/2)]⟩

/-- A store holding only node `A`. -/
def oneNodeGraph : GraphDB := emptyGraph.addNode nodeA

/-- Node `A` as it looks after a spreading-activation call that left it with
energy 1: the `activation` property has been written into its property map. -/
def activatedNodeA : Node := ⟨"A", "Entity", [("activation", 1)], none⟩

/-- `DatabaseConfig.vector_dim`: the configured embedding dimension. -/
def vectorDim : ℕ := 256

noncomputable section

/-- One component of the pre-normalization fallback embedding of
`VectorDatabase._generate_embedding`:
`math.sin(hash_val * (i + 1)) * 0.5 + 0.5`.  The md5 hash of the text is the
natural number `hashVal`; md5 itself is an external library call, so the
embedding is stated for every possible hash value. -/
def embComponent (hashVal : ℕ) (i : ℕ) : ℝ :=
  Real.sin ((hashVal * (i + 1) : ℕ) : ℝ) * 0.5 + 0.5

/-- The raw vector `[sin(h*(i+1))*0.5 + 0.5 for i in range(dim)]`. -/
def embeddingComponents (hashVal : ℕ) : List ℝ :=
  (List.range vectorDim).map (embComponent hashVal)

/-- `sum(v * v for v in vector)`. -/
def sumSquares (v : List ℝ) : ℝ :=
  (v.map fun x => x * x).sum

/-- `norm = math.sqrt(sum(v * v for v in vector)) or 1.0`: a zero square root
is replaced by `1.0` by the Python `or`. -/
def embeddingNorm (hashVal : ℕ) : ℝ :=
  let s := Real.sqrt (sumSquares (embeddingComponents hashVal))
  if s = 0 then 1 else s

/-- `VectorDatabase._generate_embedding`: the L2-normalized fallback vector
`[v / norm for v in vector]`. -/
def generateEmbedding (hashVal : ℕ) : List ℝ :=
  (embeddingComponents hashVal).map fun v => v / embeddingNorm hashVal

/-- L2 norm of a vector. -/
def l2norm (v : List ℝ) : ℝ :=
  Real.sqrt (sumSquares v)

/-- Episodic memory chunk (`data_models.MemoryChunk`), restricted to the
fields the vector search consults. -/
structure MemoryChunk where
  id : Option String
  content : String
  embedding : Option (List ℝ)

/-- `VectorDatabase._cosine_similarity`: `0.0` for an empty vector or a zero
norm, else the normalized dot product; `zip` truncates to the shorter vector
as in Python. -/
def cosineSimilarity (vec1 vec2 : List ℝ) : ℝ :=
  if vec1.isEmpty ∨ vec2.isEmpty then 0
  else
    let dot := ((vec1.zip vec2).map fun p => p.1 * p.2).sum
    let norm1 := Real.sqrt (sumSquares vec1)
    let norm2 := Real.sqrt (sumSquares vec2)
    if norm1 = 0 ∨ norm2 = 0 then 0 else dot / (norm1 * norm2)

/-- Descending comparison on `(similarity, chunk)` pairs: Python
`sort(key=lambda x: x[0], reverse=True)` is a stable descending sort by the
score, matched by a stable insertion sort under this relation. -/
def byScoreDesc : (ℝ × MemoryChunk) → (ℝ × MemoryChunk) → Prop :=
  fun a b => b.1 ≤ a.1

instance : IsTotal (ℝ × MemoryChunk) byScoreDesc :=
  ⟨fun a b => le_total b.1 a.1⟩

instance : IsTrans (ℝ × MemoryChunk) byScoreDesc :=
  ⟨fun _ _ _ hab hbc => le_trans hbc hab⟩

instance : DecidableRel byScoreDesc :=
  fun a b => Real.decidableLE b.1 a.1

/-- `VectorDatabase._search_memory`: score every chunk that has a (non-empty)
embedding, stable-sort by descending similarity, take the first `n_results`
chunks. -/
def searchMemory (store : List MemoryChunk) (queryVector : List ℝ) (nResults : ℕ) :
    List MemoryChunk :=
  let scored := store.filterMap fun c =>
    match c.embedding with
    | some e => if e.isEmpty then none else some (cosineSimilarity queryVector e, c)
    | none => none
  ((scored.insertionSort byScoreDesc).take nResults).map Prod.snd

end

/-! Dictionary laws. -/

theorem dictGet_dictSet_self {α : Type} (m : List (String × α)) (k : String) (v : α) :
    dictGet (dictSet m k v) k = some v := by
  induction m with
  | nil => simp [dictSet, dictGet]
  | cons p rest ih =>
    obtain ⟨k', v'⟩ := p
    by_cases h : k' = k
    · simp [dictSet, dictGet, h]
    · simp [dictSet, dictGet, h, ih]

theorem dictGet_dictSet_ne {α : Type} (m : List (String × α)) {k k' : String} (v : α)
    (h : k' ≠ k) : dictGet (dictSet m k v) k' = dictGet m k' := by
  induction m with
  | nil => simp [dictSet, dictGet, Ne.symm h]
  | cons p rest ih =>
    obtain ⟨a, b⟩ := p
    by_cases ha : a = k
    · subst ha
      simp [dictSet, dictGet, Ne.symm h]
    · by_cases ha' : a = k'
      · simp [dictSet, dictGet, ha, ha', h]
      · simp [dictSet, dictGet, ha, ha', ih]

theorem dictGet_eq_none_iff {α : Type} (m : List (String × α)) (k : String) :
    dictGet m k = none ↔ k ∉ m.map Prod.fst := by
  induction m with
  | nil => simp [dictGet]
  | cons p rest ih =>
    obtain ⟨a, b⟩ := p
    by_cases ha : a = k
    · simp [dictGet, ha]
    · simp [dictGet, ha, ih, Ne.symm ha]

theorem mem_of_dictGet_eq_some {α : Type} {m : List (String × α)} {k : String} {v : α}
    (h : dictGet m k = some v) : (k, v) ∈ m := by
  induction m with
  | nil => simp [dictGet] at h
  | cons p rest ih =>
    obtain ⟨a, b⟩ := p
    by_cases ha : a = k
    · subst ha
      simp [dictGet] at h
      simp [h]
    · simp [dictGet, ha] at h
      exact List.mem_cons_of_mem _ (ih h)

theorem mem_keys_of_dictGet_eq_some {α : Type} {m : List (String × α)} {k : String} {v : α}
    (h : dictGet m k = some v) : k ∈ m.map Prod.fst := by
  have := mem_of_dictGet_eq_some h
  exact List.mem_map_of_mem Prod.fst this

theorem mem_dictSet {α : Type} {m : List (String × α)} {k : String} {v : α} :
    ∀ p ∈ dictSet m k v, p ∈ m ∨ p = (k, v) := by
  induction m with
  | nil => simp [dictSet]
  | cons q rest ih =>
    obtain ⟨a, b⟩ := q
    intro p hp
    by_cases ha : a = k
    · simp [dictSet, ha] at hp
      rcases hp with h | h
      · right; simp [h]
      · left; exact List.mem_cons_of_mem _ h
    · simp [dictSet, ha] at hp
      rcases hp with h | h
      · left; simp [h]
      · rcases ih p h with h' | h'
        · left; exact List.mem_cons_of_mem _ h'
        · right; exact h'

theorem keys_dictSet {α : Type} (m : List (String × α)) (k : String) (v : α) :
    (dictSet m k v).map Prod.fst =
      if (dictGet m k).isSome then m.map Prod.fst else m.map Prod.fst ++ [k] := by
  induction m with
  | nil => simp [dictSet, dictGet]
  | cons p rest ih =>
    obtain ⟨a, b⟩ := p
    by_cases ha : a = k
    · simp [dictSet, dictGet, ha]
    · simp only [dictSet, dictGet, if_neg ha, List.map_cons]
      rw [ih]
      by_cases hs : (dictGet rest k).isSome <;> simp [hs]

theorem nodupKeys_dictSet {α : Type} {m : List (String × α)} (k : String) (v : α)
    (h : (m.map Prod.fst).Nodup) : ((dictSet m k v).map Prod.fst).Nodup := by
  rw [keys_dictSet]
  by_cases hs : (dictGet m k).isSome
  · simpa [hs] using h
  · have hk : k ∉ m.map Prod.fst := by
      rw [← dictGet_eq_none_iff]
      exact Option.not_isSome_iff_eq_none.mp hs
    simp [hs, List.nodup_append, h, hk]

theorem length_dictSet_le {α : Type} (m : List (String × α)) (k : String) (v : α) :
    (dictSet m k v).length ≤ m.length + 1 := by
  induction m with
  | nil => simp [dictSet]
  | cons p rest ih =>
    obtain ⟨a, b⟩ := p
    by_cases ha : a = k
    · simp [dictSet, ha]
    · simpa [dictSet, ha] using ih

theorem foldl_preserves {α β : Type} (P : α → Prop) (f : α → β → α)
    (hf : ∀ a b, P a → P (f a b)) :
    ∀ (l : List β) (a : α), P a → P (l.foldl f a) := by
  intro l
  induction l with
  | nil => intro a h; simpa using h
  | cons b t ih =>
    intro a h
    simpa using ih (f a b) (hf a b h)

/-! Key distinctness of the transient energy map. -/

theorem seedActive_keys_nodup (cues : List (String × ℚ)) :
    ((seedActive cues).map Prod.fst).Nodup := by
  have h := foldl_preserves
    (fun m : List (String × ℚ) => (m.map Prod.fst).Nodup)
    (fun m c => dictSet m c.1 c.2)
    (fun m c hm => nodupKeys_dictSet c.1 c.2 hm) cues [] (by simp)
  simpa [seedActive] using h

theorem spreadLoop_keys_nodup (sem proc : GraphDB) (attn : List (String × ℚ))
    (decayFactor threshold : ℚ) (maxDepth : ℕ) :
    ∀ (fuel : ℕ) (queue : List (String × ℕ)) (visited : List String)
      (active : List (String × ℚ)), (active.map Prod.fst).Nodup →
      ((spreadLoop sem proc attn decayFactor threshold maxDepth fuel queue visited
        active).map Prod.fst).Nodup := by
  intro fuel
  induction fuel with
  | zero => intro queue visited active h; simpa [spreadLoop] using h
  | succ n ih =>
    intro queue visited active h
    match queue with
    | [] => simpa [spreadLoop] using h
    | (currentId, depth) :: rest =>
      rw [spreadLoop]
      by_cases h1 : maxDepth ≤ depth ∨ currentId ∈ visited
      · rw [if_pos h1]
        exact ih rest visited active h
      · rw [if_neg h1]
        by_cases h2 : (dictGet active currentId).getD 0 < threshold
        · rw [if_pos h2]
          exact ih rest (currentId :: visited) active h
        · rw [if_neg h2]
          apply ih
          exact foldl_preserves
            (fun acc : List (String × ℚ) × List (String × ℕ) => (acc.1.map Prod.fst).Nodup)
            _ (fun acc nb hacc => nodupKeys_dictSet nb.1.id _ hacc) _ (active, rest) h

theorem finalEnergies_keys_nodup (sem proc : GraphDB) (taskType : TaskType)
    (decayFactor threshold : ℚ) (maxDepth fuel : ℕ) (cues : List (String × ℚ)) :
    ((finalEnergies sem proc taskType decayFactor threshold maxDepth fuel cues).map
      Prod.fst).Nodup :=
  spreadLoop_keys_nodup sem proc _ decayFactor threshold maxDepth fuel _ []
    (seedActive cues) (seedActive_keys_nodup cues)

/-! Collection of activated nodes: store update facts. -/

theorem storeWF_update {g : GraphDB} (h : StoreWF g) {nodeId : String} {n n' : Node}
    (hget : dictGet g.nodes nodeId = some n) (hid : n'.id = n.id) :
    StoreWF { g with nodes := dictSet g.nodes nodeId n' } := by
  intro p hp
  rcases mem_dictSet p hp with hmem | hpe
  · exact h p hmem
  · have := h (nodeId, n) (mem_of_dictGet_eq_some hget)
    subst hpe
    simpa [hid] using this

theorem withActivation_id (n : Node) (energy : ℚ) : (withActivation n energy).id = n.id :=
  rfl

theorem collectLoop_get_other (threshold : ℚ) :
    ∀ (active : List (String × ℚ)) (sem proc : GraphDB) (j : String),
      j ∉ active.map Prod.fst →
      dictGet (collectLoop threshold sem proc active).2.1.nodes j = dictGet sem.nodes j ∧
      dictGet (collectLoop threshold sem proc active).2.2.nodes j = dictGet proc.nodes j := by
  intro active
  induction active with
  | nil => intro sem proc j _; simp [collectLoop]
  | cons p rest ih =>
    obtain ⟨nodeId, energy⟩ := p
    intro sem proc j hj
    have hj1 : j ≠ nodeId := by
      intro he; exact hj (by simp [he])
    have hj2 : j ∉ rest.map Prod.fst := by
      intro he; exact hj (by simp [he])
    rw [collectLoop]
    by_cases hlt : threshold < energy
    · rw [if_pos hlt]
      rcases hsem : dictGet sem.nodes nodeId with _ | n
      · rcases hproc : dictGet proc.nodes nodeId with _ | n
        · exact ih sem proc j hj2
        · have := ih sem
            { proc with nodes := dictSet proc.nodes nodeId (withActivation n energy) } j hj2
          simpa [dictGet_dictSet_ne _ _ hj1] using this
      · have := ih
          { sem with nodes := dictSet sem.nodes nodeId (withActivation n energy) } proc j hj2
        simpa [dictGet_dictSet_ne _ _ hj1] using this
    · rw [if_neg hlt]
      exact ih sem proc j hj2

theorem collectLoop_spec (threshold : ℚ) :
    ∀ (active : List (String × ℚ)) (sem proc : GraphDB),
      StoreWF sem → StoreWF proc → (active.map Prod.fst).Nodup →
      ∀ n ∈ (collectLoop threshold sem proc active).1,
        ∃ e, dictGet active n.id = some e ∧ threshold < e ∧
          dictGet n.properties "activation" = some e ∧
          (dictGet (collectLoop threshold sem proc active).2.1.nodes n.id = some n ∨
           dictGet (collectLoop threshold sem proc active).2.2.nodes n.id = some n) := by
  intro active
  induction active with
  | nil => intro sem proc _ _ _ n hn; simp [collectLoop] at hn
  | cons p rest ih =>
    obtain ⟨nodeId, energy⟩ := p
    intro sem proc hsemWF hprocWF hnd n hn
    have hndHead : nodeId ∉ rest.map Prod.fst := by
      have := hnd
      simp only [List.map_cons, List.nodup_cons] at this
      exact this.1
    have hndTail : (rest.map Prod.fst).Nodup := by
      have := hnd
      simp only [List.map_cons, List.nodup_cons] at this
      exact this.2
    rw [collectLoop] at hn ⊢
    by_cases hlt : threshold < energy
    · rw [if_pos hlt] at hn ⊢
      rcases hsem : dictGet sem.nodes nodeId with _ | n0
      · rcases hproc : dictGet proc.nodes nodeId with _ | n0
        · simp only [hsem, hproc] at hn ⊢
          obtain ⟨e, he1, he2, he3, he4⟩ := ih sem proc hsemWF hprocWF hndTail n hn
          have hne : n.id ≠ nodeId := by
            intro he
            exact hndHead (he ▸ mem_keys_of_dictGet_eq_some he1)
          refine ⟨e, ?_, he2, he3, he4⟩
          simpa [dictGet, hne, Ne.symm hne] using he1
        · -- found in the procedural store
          simp only [hsem, hproc] at hn ⊢
          set proc' : GraphDB :=
            { proc with nodes := dictSet proc.nodes nodeId (withActivation n0 energy) } with hproc'
          have hprocWF' : StoreWF proc' :=
            storeWF_update hprocWF hproc (withActivation_id n0 energy)
          have hid0 : n0.id = nodeId := hprocWF (nodeId, n0) (mem_of_dictGet_eq_some hproc)
          rw [List.mem_cons] at hn
          rcases hn with hn | hn
          · subst hn
            refine ⟨energy, ?_, hlt, ?_, Or.inr ?_⟩
            · simp [dictGet, withActivation_id, hid0]
            · simp [withActivation, dictGet_dictSet_self]
            · have hpres := (collectLoop_get_other threshold rest sem proc'
                (withActivation n0 energy).id (by simpa [withActivation_id, hid0] using hndHead)).2
              rw [hpres]
              simp [hproc', withActivation_id, hid0, dictGet_dictSet_self]
          · obtain ⟨e, he1, he2, he3, he4⟩ := ih sem proc' hsemWF hprocWF' hndTail n hn
            have hne : n.id ≠ nodeId := by
              intro he
              exact hndHead (he ▸ mem_keys_of_dictGet_eq_some he1)
            refine ⟨e, ?_, he2, he3, he4⟩
            simpa [dictGet, hne, Ne.symm hne] using he1
      · -- found in the semantic store
        simp only [hsem] at hn ⊢
        set sem' : GraphDB :=
          { sem with nodes := dictSet sem.nodes nodeId (withActivation n0 energy) } with hsem'
        have hsemWF' : StoreWF sem' :=
          storeWF_update hsemWF hsem (withActivation_id n0 energy)
        have hid0 : n0.id = nodeId := hsemWF (nodeId, n0) (mem_of_dictGet_eq_some hsem)
        rw [List.mem_cons] at hn
        rcases hn with hn | hn
        · subst hn
          refine ⟨energy, ?_, hlt, ?_, Or.inl ?_⟩
          · simp [dictGet, withActivation_id, hid0]
          · simp [withActivation, dictGet_dictSet_self]
          · have hpres := (collectLoop_get_other threshold rest sem' proc
              (withActivation n0 energy).id (by simpa [withActivation_id, hid0] using hndHead)).1
            rw [hpres]
            simp [hsem', withActivation_id, hid0, dictGet_dictSet_self]
        · obtain ⟨e, he1, he2, he3, he4⟩ := ih sem' proc hsemWF' hprocWF hndTail n hn
          have hne : n.id ≠ nodeId := by
            intro he
            exact hndHead (he ▸ mem_keys_of_dictGet_eq_some he1)
          refine ⟨e, ?_, he2, he3, he4⟩
          simpa [dictGet, hne, Ne.symm hne] using he1
    · rw [if_neg hlt] at hn ⊢
      obtain ⟨e, he1, he2, he3, he4⟩ := ih sem proc hsemWF hprocWF hndTail n hn
      have hne : n.id ≠ nodeId := by
        intro he
        exact hndHead (he ▸ mem_keys_of_dictGet_eq_some he1)
      refine ⟨e, ?_, he2, he3, he4⟩
      simpa [dictGet, hne, Ne.symm hne] using he1

/-! Path reward: pointwise behaviour of the enumerate loop. -/

theorem rewardStep_get_ne (m : List (String × ℚ)) (nodeId : String) (i : ℕ) (reward : ℚ)
    {j : String} (h : j ≠ nodeId) :
    dictGet (rewardStep m nodeId i reward) j = dictGet m j := by
  unfold rewardStep
  split
  · exact dictGet_dictSet_ne m _ h
  · rfl

theorem rewardStep_get_self (m : List (String × ℚ)) (nodeId : String) (i : ℕ) (reward : ℚ) :
    dictGet (rewardStep m nodeId i reward) nodeId =
      (dictGet m nodeId).map fun old => old + reward * (1 - (i : ℚ) / 10) := by
  unfold rewardStep
  rcases h : dictGet m nodeId with _ | old
  · simp [h]
  · simp [h, dictGet_dictSet_self]

theorem rewardAux_get_not_mem (reward : ℚ) :
    ∀ (path : List String) (m : List (String × ℚ)) (k : ℕ) (j : String), j ∉ path →
      dictGet (rewardAux reward m path k) j = dictGet m j := by
  intro path
  induction path with
  | nil => intro m k j _; rfl
  | cons hd rest ih =>
    intro m k j hj
    have h1 : j ≠ hd := fun he => hj (by simp [he])
    have h2 : j ∉ rest := fun he => hj (by simp [he])
    have hstep : rewardAux reward m (hd :: rest) k =
        rewardAux reward (rewardStep m hd k reward) rest (k + 1) := rfl
    rw [hstep, ih _ _ _ h2, rewardStep_get_ne _ _ _ _ h1]

theorem rewardAux_get (reward : ℚ) :
    ∀ (path : List String), path.Nodup →
      ∀ (m : List (String × ℚ)) (k i : ℕ) (h : i < path.length),
        dictGet (rewardAux reward m path k) (path.get ⟨i, h⟩) =
          (dictGet m (path.get ⟨i, h⟩)).map
            fun old => old + reward * (1 - ((k + i : ℕ) : ℚ) / 10) := by
  intro path
  induction path with
  | nil => intro _ m k i h; simp at h
  | cons hd rest ih =>
    intro hnd m k i h
    have hndHead : hd ∉ rest := (List.nodup_cons.mp hnd).1
    have hndTail : rest.Nodup := (List.nodup_cons.mp hnd).2
    match i with
    | 0 =>
      have hget : (hd :: rest).get ⟨0, h⟩ = hd := rfl
      have hstep : rewardAux reward m (hd :: rest) k =
          rewardAux reward (rewardStep m hd k reward) rest (k + 1) := rfl
      rw [hget, hstep, rewardAux_get_not_mem reward rest _ _ hd hndHead,
        rewardStep_get_self]
      simp
    | i + 1 =>
      have hlt : i < rest.length := Nat.lt_of_succ_lt_succ (by simpa using h)
      have hget : (hd :: rest).get ⟨i + 1, h⟩ = rest.get ⟨i, hlt⟩ := rfl
      have hstep : rewardAux reward m (hd :: rest) k =
          rewardAux reward (rewardStep m hd k reward) rest (k + 1) := rfl
      have hne : rest.get ⟨i, hlt⟩ ≠ hd := by
        intro he
        exact hndHead (he ▸ List.get_mem rest i hlt)
      have harith : k + 1 + i = k + (i + 1) := by omega
      rw [hget, hstep, ih hndTail (rewardStep m hd k reward) (k + 1) i hlt,
        rewardStep_get_ne _ _ _ _ hne, harith]

/-! Prefetch cache size bounds. -/

theorem cacheSet_maxSize {α : Type} (c : ActivationCache α) (k : String) (v : α) :
    (c.set k v).maxSize = c.maxSize := by
  by_cases h : c.maxSize ≤ c.cache.length <;>
    simp [ActivationCache.set, ActivationCache.evict, h]

theorem cacheSet_length_le {α : Type} (c : ActivationCache α) (k : String) (v : α)
    (hcap : 5 ≤ c.maxSize) (h : c.cache.length ≤ c.maxSize) :
    (c.set k v).cache.length ≤ c.maxSize := by
  have h5 : 1 ≤ c.maxSize / 5 := (Nat.one_le_div_iff (by norm_num)).mpr hcap
  by_cases hfull : c.maxSize ≤ c.cache.length
  · have h1 := length_dictSet_le (c.cache.drop (c.maxSize / 5)) k v
    have h2 : (c.cache.drop (c.maxSize / 5)).length = c.cache.length - c.maxSize / 5 :=
      List.length_drop _ _
    simp only [ActivationCache.set, ActivationCache.evict, if_pos hfull]
    omega
  · have h1 := length_dictSet_le c.cache k v
    simp only [ActivationCache.set, if_neg hfull]
    omega

/-! The claims. -/

/-- C1, counterexample: in the scenario (edges A→B weight 0.9, B→C weight 0.8,
decay 0.5, threshold 0.1, attention weight 1.0, seed (A, 1.0), depth 2) the
claim expects the final energy of A to be 1.0, but the engine leaves A with
energy 481/400 = 1.2025: neighbor lookup is undirected in
`_get_weighted_neighbors_memory`, so when B is expanded it sends energy back
over the A→B edge, and `spreading_activation` adds that to the energy of A. -/
theorem spreading_scenario_counterexample :
    dictGet scenarioEnergies "A" = some (481/400) ∧
    ((481 : ℚ)/400 ≠ 1) := by
  constructor
  · norm_num [scenarioEnergies, finalEnergies, seedActive, spreadLoop, getAllNeighbors,
      GraphDB.getWeightedNeighbors, GraphDB.addNode, GraphDB.addRelationship, emptyGraph,
      scenarioGraph, dictGet, dictSet, attentionLookup, receivedEnergy, getAttentionWeights,
      nodeA, nodeB, nodeC, List.foldl, List.filterMap]
    simp
    norm_num [dictGet]
  · norm_num

/-- C1, amended: in the scenario the final energies are A = 1.2025 (the seed
1.0 plus 0.45 × 0.5 × 0.9 sent back from B over the undirected A→B edge),
B = 0.45 and C = 0.18; all three exceed the threshold 0.1 and the returned
list is ordered A, B, C by descending energy; energies from multiple senders
accumulate additively onto the running energy of a node. -/
theorem spreading_scenario_amended :
    scenarioEnergies = [("A", 481/400), ("B", 9/20), ("C", 9/50)] ∧
    ((481 : ℚ)/400 = 1 + 9/20 * (1/2) * (9/10)) ∧
    scenarioResult.nodes.map Node.id = ["A", "B", "C"] ∧
    scenarioResult.nodes.map activationKey = [481/400, 9/20, 9/50] ∧
    ((1 : ℚ)/10 < 9/50 ∧ (9 : ℚ)/50 < 9/20 ∧ (9 : ℚ)/20 < 481/400) := by
  refine ⟨?_, by norm_num, ?_, ?_, by norm_num⟩ <;>
  · norm_num [scenarioEnergies, scenarioResult, spreadingActivation, collectActivatedNodes,
      collectLoop, withActivation, activationKey, finalEnergies, seedActive, spreadLoop,
      getAllNeighbors, GraphDB.getWeightedNeighbors, GraphDB.addNode, GraphDB.addRelationship,
      emptyGraph, scenarioGraph, dictGet, dictSet, attentionLookup, receivedEnergy,
      getAttentionWeights, nodeA, nodeB, nodeC, List.foldl, List.filterMap,
      List.insertionSort, List.orderedInsert]
    simp
    norm_num [collectLoop, withActivation, activationKey, dictGet, dictSet,
      List.insertionSort, List.orderedInsert]

/-- C2: the claim says an unlisted label receives the profile's `default`
multiplier (0.8 for technical-coding, 0.7 for emotional-counseling).  The
code stores those `default` entries but looks labels up with
`attention_weights.get(label, 1.0)`, so an unlisted label such as "Person"
under technical-coding (or "Technology" under emotional-counseling) is
multiplied by the constant 1.0, never by the stored default — the `default`
entries are dead.  The claim matches the evident intent, the lookup is the
slip. -/
theorem attention_default_multiplier_dead :
    dictGet (getAttentionWeights TaskType.technicalCoding) "Person" = none ∧
    dictGet (getAttentionWeights TaskType.technicalCoding) "default" = some (4/5) ∧
    attentionWeightOf TaskType.technicalCoding "Person" = 1 ∧
    dictGet (getAttentionWeights TaskType.emotionalCounseling) "Technology" = none ∧
    dictGet (getAttentionWeights TaskType.emotionalCounseling) "default" = some (7/10) ∧
    attentionWeightOf TaskType.emotionalCounseling "Technology" = 1 ∧
    receivedEnergy 1 (1/2) 1 (attentionWeightOf TaskType.technicalCoding "Person") = 1/2 ∧
    receivedEnergy 1 (1/2) 1 (4/5) = 2/5 ∧
    ((1 : ℚ)/2 ≠ 2/5) := by
  refine ⟨?_, ?_, ?_, ?_, ?_, ?_, ?_, by norm_num [receivedEnergy], by norm_num⟩ <;>
    · simp [getAttentionWeights, dictGet, attentionWeightOf, attentionLookup, receivedEnergy]
      try norm_num

/-- C3, counterexample: in the in-memory graph store, two `add_relationship`
calls with the same (source, target, label) triple (weights 0.9 then 0.5) do
not upsert: `get_weighted_neighbors` afterwards returns the neighbor twice,
once per stored edge, not once with the second weight. -/
theorem add_relationship_upsert_counterexample :
    duplicateEdgeGraph.getWeightedNeighbors "A" = [(nodeB, 9/10), (nodeB, 1/2)] ∧
    duplicateEdgeGraph.getWeightedNeighbors "A" ≠ [(nodeB, 1/2)] := by
  have h : duplicateEdgeGraph.getWeightedNeighbors "A" = [(nodeB, 9/10), (nodeB, 1/2)] := by
    simp [duplicateEdgeGraph, GraphDB.getWeightedNeighbors, GraphDB.addNode,
      GraphDB.addRelationship, emptyGraph, dictGet, dictSet, nodeA, nodeB, List.filterMap]
  refine ⟨h, ?_⟩
  rw [h]
  simp

/-- C3, amended: only the Neo4j path (`MERGE ... SET r.weight = $weight`)
replaces the weight; the in-memory store appends a duplicate edge on every
`add_relationship` call, and after two adds with the same triple
`get_weighted_neighbors` returns the neighbor once per add, with both weights
in insertion order. -/
theorem add_relationship_amended (A B : Node) (lbl : String) (w1 w2 : ℚ)
    (hAB : A.id ≠ B.id) :
    ((((emptyGraph.addNode A).addNode B).addRelationship
        ⟨A.id, B.id, lbl, w1, []⟩).addRelationship
        ⟨A.id, B.id, lbl, w2, []⟩).getWeightedNeighbors A.id = [(B, w1), (B, w2)] := by
  simp [GraphDB.getWeightedNeighbors, GraphDB.addRelationship, GraphDB.addNode,
    emptyGraph, dictSet, dictGet, hAB, Ne.symm hAB]

/-- Witness for C3 (amended) at the concrete duplicate-edge store. -/
theorem add_relationship_amended_witness :
    duplicateEdgeGraph.getWeightedNeighbors "A" = [(nodeB, 9/10), (nodeB, 1/2)] :=
  add_relationship_amended nodeA nodeB "KNOWS" (9/10) (1/2) (by decide)

/-- C5, counterexample: with capacity 4 the eviction count
`int(max_size * 0.2)` is 0, so a full cache evicts nothing and the insertion
still goes through: five distinct `set` calls leave 5 > 4 entries, violating
the claimed bound for every configured capacity. -/
theorem prefetch_cache_capacity_counterexample :
    (ActivationCache.setMany (⟨[], 4⟩ : ActivationCache ℚ)
      [("a", 0), ("b", 0), ("c", 0), ("d", 0), ("e", 0)]).cache.length = 5 ∧
    ¬ (ActivationCache.setMany (⟨[], 4⟩ : ActivationCache ℚ)
      [("a", 0), ("b", 0), ("c", 0), ("d", 0), ("e", 0)]).cache.length ≤ 4 := by
  constructor
  · decide
  · decide

/-- C5, amended: for every capacity with `floor(capacity × 0.2) ≥ 1` (i.e.
capacity ≥ 5) the cache size never exceeds the capacity over any sequence of
`set` operations, and an insertion that finds the cache full first evicts
exactly `floor(capacity × 0.2)` entries, the oldest in insertion order (a
prefix of the dict); for capacities below 5 the eviction count is 0 and the
bound fails. -/
theorem prefetch_cache_capacity_amended (cap : ℕ) (hcap : 5 ≤ cap) :
    (∀ ops : List (String × ℚ),
      (ActivationCache.setMany (⟨[], cap⟩ : ActivationCache ℚ) ops).cache.length ≤ cap) ∧
    (∀ (c : ActivationCache ℚ), c.maxSize = cap → cap ≤ c.cache.length → ∀ (k : String) (v : ℚ),
      (c.set k v).cache = dictSet (c.cache.drop (cap / 5)) k v ∧
      (c.cache.drop (cap / 5)).length = c.cache.length - cap / 5 ∧ 1 ≤ cap / 5) := by
  constructor
  · intro ops
    have h := foldl_preserves
      (fun c : ActivationCache ℚ => c.maxSize = cap ∧ c.cache.length ≤ cap)
      (fun acc p => acc.set p.1 p.2)
      (fun c p hc => ⟨(cacheSet_maxSize c p.1 p.2).trans hc.1,
        by
          have := cacheSet_length_le c p.1 p.2 (hc.1 ▸ hcap) (hc.1 ▸ hc.2)
          rw [hc.1] at this
          exact this⟩)
      ops ⟨[], cap⟩ ⟨rfl, by simp⟩
    exact h.2
  · intro c hms hfull k v
    refine ⟨?_, List.length_drop _ _, (Nat.one_le_div_iff (by norm_num)).mpr hcap⟩
    simp [ActivationCache.set, ActivationCache.evict, hms, hfull]

/-- Witness for C5 (amended) at capacity 5 with six insertions. -/
theorem prefetch_cache_capacity_amended_witness :
    (ActivationCache.setMany (⟨[], 5⟩ : ActivationCache ℚ)
      [("a", 0), ("b", 0), ("c", 0), ("d", 0), ("e", 0), ("f", 0)]).cache.length ≤ 5 :=
  (prefetch_cache_capacity_amended 5 (by decide)).1
    [("a", 0), ("b", 0), ("c", 0), ("d", 0), ("e", 0), ("f", 0)]

/-- C6: the claim describes the intended error handling — and the model of
the algorithm below does satisfy it: a cue id absent from both stores, an
edge whose endpoint is not stored, and a neighbor missing at collection time
all contribute nothing, and the call returns its ranked list.  The source
cannot do this: line 197 of `activation_engine.py` uses `await` inside the
plain `def spreading_activation`, which is a Python syntax error, so
importing the module — and hence any call — raises instead of returning. -/
theorem spreading_activation_missing_nodes_model :
    (spreadingActivation emptyGraph emptyGraph [("ghost", 1)]
      TaskType.generalQA (1/2) (1/10) 2 10).nodes = [] ∧
    (spreadingActivation ghostEdgeGraph emptyGraph [("A", 1)]
      TaskType.generalQA (1/2) (1/10) 2 10).nodes.map Node.id = ["A"] ∧
    ghostEdgeGraph.getWeightedNeighbors "A" = [] ∧
    dictGet (finalEnergies emptyGraph emptyGraph TaskType.generalQA (1/2) (1/10) 2 10
      [("ghost", 1)]) "ghost" = some 1 := by
  refine ⟨?_, ?_, ?_, ?_⟩
  · norm_num [spreadingActivation, collectActivatedNodes, collectLoop, withActivation,
      activationKey, finalEnergies, seedActive, spreadLoop, getAllNeighbors,
      GraphDB.getWeightedNeighbors, GraphDB.addNode, GraphDB.addRelationship, emptyGraph,
      dictGet, dictSet, attentionLookup, receivedEnergy, getAttentionWeights,
      List.foldl, List.filterMap, List.insertionSort, List.orderedInsert]
  · norm_num [spreadingActivation, collectActivatedNodes, collectLoop, withActivation,
      activationKey, finalEnergies, seedActive, spreadLoop, getAllNeighbors,
      GraphDB.getWeightedNeighbors, GraphDB.addNode, GraphDB.addRelationship, emptyGraph,
      ghostEdgeGraph, dictGet, dictSet, attentionLookup, receivedEnergy, getAttentionWeights,
      nodeA, List.foldl, List.filterMap, List.insertionSort, List.orderedInsert]
    try simp
    try norm_num [collectLoop, withActivation, activationKey, dictGet, dictSet,
      List.insertionSort, List.orderedInsert]
  · simp [ghostEdgeGraph, GraphDB.getWeightedNeighbors, GraphDB.addNode,
      GraphDB.addRelationship, emptyGraph, dictGet, dictSet, nodeA, List.filterMap]
  · norm_num [finalEnergies, seedActive, spreadLoop, getAllNeighbors,
      GraphDB.getWeightedNeighbors, emptyGraph, dictGet, dictSet, attentionLookup,
      receivedEnergy, getAttentionWeights, List.foldl, List.filterMap]

/-- C7, counterexample: a chunk with an empty metadata map gets
metadata_richness 0.3, not the 0 that the fraction-of-expected-keys rule
would give (`_calculate_metadata_score` short-circuits `if not metadata`). -/
theorem metadata_score_empty_counterexample :
    calculateMetadataScore [] = 3/10 ∧ ((3 : ℚ)/10 ≠ 0) := by
  constructor
  · simp [calculateMetadataScore]
  · norm_num

/-- C4: `reward_activation_path(path, reward)` leaves both graph stores (and
hence every stored edge weight) untouched and, for a duplicate-free path,
changes the transient energy of the node at position `i` of the path by
exactly `reward * (1 − i * 0.1)` when that node id is present in the
transient map — so earlier path nodes get a larger boost — while ids absent
from the map, and ids not on the path, keep their previous (absent or
unchanged) energy; `Option.map` states both at once. -/
theorem reward_activation_path_spec (s : ActivationEngineState) (pathNodes : List String)
    (reward : ℚ) (hnd : pathNodes.Nodup) :
    (rewardActivationPath s pathNodes reward).semantic = s.semantic ∧
    (rewardActivationPath s pathNodes reward).procedural = s.procedural ∧
    (∀ (i : ℕ) (h : i < pathNodes.length),
      dictGet (rewardActivationPath s pathNodes reward).activeNodes (pathNodes.get ⟨i, h⟩) =
        (dictGet s.activeNodes (pathNodes.get ⟨i, h⟩)).map
          fun old => old + reward * (1 - (i : ℚ) / 10)) ∧
    (∀ j : String, j ∉ pathNodes →
      dictGet (rewardActivationPath s pathNodes reward).activeNodes j =
        dictGet s.activeNodes j) := by
  refine ⟨rfl, rfl, ?_, ?_⟩
  · intro i h
    have hx := rewardAux_get reward pathNodes hnd s.activeNodes 0 i h
    simpa [rewardActivationPath] using hx
  · intro j hj
    simpa [rewardActivationPath] using
      rewardAux_get_not_mem reward pathNodes s.activeNodes 0 j hj

/-- Witness for C4: path ["A", "B"] with reward 0.1 over a map holding only
"A" with energy 0.5. -/
theorem reward_activation_path_spec_witness :
    dictGet (rewardActivationPath rewardStateExample ["A", "B"] (1/10)).activeNodes
        (["A", "B"].get ⟨0, by norm_num⟩) =
      (dictGet rewardStateExample.activeNodes (["A", "B"].get ⟨0, by norm_num⟩)).map
        (fun old => old + 1/10 * (1 - ((0 : ℕ) : ℚ) / 10)) :=
  (reward_activation_path_spec rewardStateExample ["A", "B"] (1/10)
    (by simp)).2.2.1 0 (by norm_num)

/-- C10: with the in-memory backend, every node returned by
`spreading_activation` carries its final energy under the `activation` key of
its property map, and the node object stored in the graph store is that very
node — the retrieval mutates the stored graph state, which persists until a
later call overwrites it. -/
theorem spreading_activation_mutates_stores (sem proc : GraphDB) (cues : List (String × ℚ))
    (taskType : TaskType) (decayFactor threshold : ℚ) (maxDepth fuel : ℕ)
    (hsem : StoreWF sem) (hproc : StoreWF proc) :
    ∀ n ∈ (spreadingActivation sem proc cues taskType decayFactor threshold
        maxDepth fuel).nodes,
      ∃ e, dictGet (finalEnergies sem proc taskType decayFactor threshold maxDepth fuel cues)
            n.id = some e ∧
        threshold < e ∧ dictGet n.properties "activation" = some e ∧
        (dictGet (spreadingActivation sem proc cues taskType decayFactor threshold
            maxDepth fuel).semantic.nodes n.id = some n ∨
         dictGet (spreadingActivation sem proc cues taskType decayFactor threshold
            maxDepth fuel).procedural.nodes n.id = some n) := by
  intro n hn
  have hnd := finalEnergies_keys_nodup sem proc taskType decayFactor threshold maxDepth fuel cues
  have hperm := List.perm_insertionSort
    (fun a b => activationKey b ≤ activationKey a)
    (collectLoop threshold sem proc
      (finalEnergies sem proc taskType decayFactor threshold maxDepth fuel cues)).1
  have hmem : n ∈ (collectLoop threshold sem proc
      (finalEnergies sem proc taskType decayFactor threshold maxDepth fuel cues)).1 := by
    refine hperm.mem_iff.mp ?_
    simpa [spreadingActivation, collectActivatedNodes] using hn
  have hspec := collectLoop_spec threshold
    (finalEnergies sem proc taskType decayFactor threshold maxDepth fuel cues)
    sem proc hsem hproc hnd n hmem
  simpa [spreadingActivation, collectActivatedNodes] using hspec

/-- Witness for C10: a store holding only node A, cue (A, 1.0): the returned
node and the stored node both carry `activation = 1`. -/
theorem spreading_activation_mutates_stores_witness :
    ∃ e, dictGet (finalEnergies oneNodeGraph emptyGraph TaskType.generalQA (1/2) (1/10) 2 10
          [("A", 1)]) activatedNodeA.id = some e ∧
      (1 : ℚ)/10 < e ∧ dictGet activatedNodeA.properties "activation" = some e ∧
      (dictGet (spreadingActivation oneNodeGraph emptyGraph [("A", 1)] TaskType.generalQA
          (1/2) (1/10) 2 10).semantic.nodes activatedNodeA.id = some activatedNodeA ∨
       dictGet (spreadingActivation oneNodeGraph emptyGraph [("A", 1)] TaskType.generalQA
          (1/2) (1/10) 2 10).procedural.nodes activatedNodeA.id = some activatedNodeA) :=
  spreading_activation_mutates_stores oneNodeGraph emptyGraph [("A", 1)] TaskType.generalQA
    (1/2) (1/10) 2 10
    (by intro p hp; simp [oneNodeGraph, GraphDB.addNode, emptyGraph, dictSet, nodeA] at hp;
        simp [hp, nodeA])
    (by intro p hp; simp [emptyGraph] at hp)
    activatedNodeA
    (by norm_num [spreadingActivation, collectActivatedNodes, collectLoop, withActivation,
          activationKey, finalEnergies, seedActive, spreadLoop, getAllNeighbors,
          GraphDB.getWeightedNeighbors, GraphDB.addNode, emptyGraph, oneNodeGraph, dictGet,
          dictSet, attentionLookup, receivedEnergy, getAttentionWeights, nodeA, activatedNodeA,
          List.foldl, List.filterMap, List.insertionSort, List.orderedInsert])

/-- C7, amended: for a non-empty metadata map the metadata_richness component
equals the fraction of the five expected keys ('user_id', 'task_type',
'keywords', 'context', 'importance') present in the map; an empty metadata
map yields the fixed neutral value 0.3 instead of 0. -/
theorem metadata_score_amended (metadataKeys : List String) (h : metadataKeys ≠ []) :
    calculateMetadataScore metadataKeys =
      (expectedMetadataKeys.countP (fun k => metadataKeys.contains k) : ℚ) / 5 := by
  have hne : metadataKeys.isEmpty = false := by
    simpa [List.isEmpty_iff] using h
  have hcount : (expectedMetadataKeys.map fun k => metadataKeys.contains k).count true =
      expectedMetadataKeys.countP fun k => metadataKeys.contains k := by
    simp [List.count, List.countP_map, Function.comp_def]
  have hlen : (expectedMetadataKeys.map fun k => metadataKeys.contains k).length = 5 := by
    simp [expectedMetadataKeys]
  simp only [calculateMetadataScore, hne, Bool.false_eq_true, if_false, hcount, hlen]
  norm_num

/-- Witness for C7 (amended): metadata keys ["user_id", "foo"] give 1/5. -/
theorem metadata_score_amended_witness :
    calculateMetadataScore ["user_id", "foo"] =
      (expectedMetadataKeys.countP (fun k => (["user_id", "foo"]).contains k) : ℚ) / 5 :=
  metadata_score_amended ["user_id", "foo"] (by simp)

/-! The fallback embedding: norm and dimension. -/

theorem sumSquares_nonneg (v : List ℝ) : 0 ≤ sumSquares v := by
  apply List.sum_nonneg
  intro x hx
  obtain ⟨y, _, rfl⟩ := List.mem_map.mp hx
  exact mul_self_nonneg y

theorem le_sumSquares_of_mem {v : List ℝ} {x : ℝ} (hx : x ∈ v) : x * x ≤ sumSquares v := by
  refine List.single_le_sum ?_ (x * x) (List.mem_map_of_mem _ hx)
  intro y hy
  obtain ⟨z, _, rfl⟩ := List.mem_map.mp hy
  exact mul_self_nonneg z

theorem sumSquares_embeddingComponents_pos (hashVal : ℕ) :
    0 < sumSquares (embeddingComponents hashVal) := by
  by_cases hs : Real.sin ((hashVal : ℕ) : ℝ) = -1
  · -- sin(h) = -1 forces cos(h) = 0, hence sin(2h) = 0 and component 1 is 1/2
    have hcos2 : Real.cos ((hashVal : ℕ) : ℝ) ^ 2 = 0 := by
      have hpy := Real.sin_sq_add_cos_sq ((hashVal : ℕ) : ℝ)
      nlinarith [hpy]
    have hcos : Real.cos ((hashVal : ℕ) : ℝ) = 0 :=
      (pow_eq_zero_iff (two_ne_zero)).mp hcos2
    have h2 : Real.sin ((hashVal * 2 : ℕ) : ℝ) = 0 := by
      push_cast
      rw [mul_comm ((hashVal : ℕ) : ℝ) 2, Real.sin_two_mul, hs, hcos]
      ring
    have hc1 : embComponent hashVal 1 = 0.5 := by
      have harg : (hashVal * (1 + 1) : ℕ) = hashVal * 2 := rfl
      unfold embComponent
      rw [harg, h2]
      ring
    have hmem : embComponent hashVal 1 ∈ embeddingComponents hashVal := by
      unfold embeddingComponents
      exact List.mem_map_of_mem _ (by simp [vectorDim])
    have hle := le_sumSquares_of_mem hmem
    rw [hc1] at hle
    nlinarith
  · -- otherwise component 0 is nonzero and its square is positive
    have h0 : embComponent hashVal 0 ≠ 0 := by
      unfold embComponent
      intro heq
      apply hs
      have hcast : ((hashVal * (0 + 1) : ℕ) : ℝ) = ((hashVal : ℕ) : ℝ) := by push_cast; ring
      rw [hcast] at heq
      nlinarith [heq]
    have hmem : embComponent hashVal 0 ∈ embeddingComponents hashVal := by
      unfold embeddingComponents
      exact List.mem_map_of_mem _ (by simp [vectorDim])
    have hle := le_sumSquares_of_mem hmem
    have hpos := mul_self_pos.mpr h0
    linarith

theorem embeddingNorm_mul_self (hashVal : ℕ) :
    embeddingNorm hashVal * embeddingNorm hashVal = sumSquares (embeddingComponents hashVal) ∧
    embeddingNorm hashVal ≠ 0 := by
  have hpos := sumSquares_embeddingComponents_pos hashVal
  have hsq : Real.sqrt (sumSquares (embeddingComponents hashVal)) ≠ 0 :=
    ne_of_gt (Real.sqrt_pos.mpr hpos)
  unfold embeddingNorm
  simp only [if_neg hsq]
  exact ⟨Real.mul_self_sqrt (le_of_lt hpos), hsq⟩

theorem sumSquares_map_div (v : List ℝ) (n : ℝ) :
    sumSquares (v.map fun x => x / n) = sumSquares v / (n * n) := by
  induction v with
  | nil => simp [sumSquares]
  | cons a t ih =>
    unfold sumSquares at ih ⊢
    simp only [List.map_cons, List.sum_cons]
    rw [ih, div_mul_div_comm, div_add_div_same]

theorem length_generateEmbedding (hashVal : ℕ) :
    (generateEmbedding hashVal).length = vectorDim := by
  unfold generateEmbedding embeddingComponents
  simp

theorem l2norm_generateEmbedding (hashVal : ℕ) : l2norm (generateEmbedding hashVal) = 1 := by
  obtain ⟨hmul, _⟩ := embeddingNorm_mul_self hashVal
  have hpos := sumSquares_embeddingComponents_pos hashVal
  unfold l2norm generateEmbedding
  rw [sumSquares_map_div, hmul, div_self (ne_of_gt hpos)]
  exact Real.sqrt_one

/-- C8: the fallback embedding is a pure function of the text hash — two
computations on the same text give syntactically the same vector — and for
every possible hash value it produces a vector of the configured dimension
(256) whose L2 norm is exactly 1 in real arithmetic (so within any ε in
floating point): the pre-normalization components `sin(h·(i+1))·0.5 + 0.5`
cannot all vanish, because `sin h = −1` forces `cos h = 0` and hence
`sin 2h = 0`, making component 1 equal to 1/2. -/
theorem fallback_embedding_spec (hashVal : ℕ) :
    generateEmbedding hashVal = generateEmbedding hashVal ∧
    (generateEmbedding hashVal).length = vectorDim ∧
    l2norm (generateEmbedding hashVal) = 1 :=
  ⟨rfl, length_generateEmbedding hashVal, l2norm_generateEmbedding hashVal⟩

/-- Witness for C8 at hash value 0. -/
theorem fallback_embedding_spec_witness :
    (generateEmbedding 0).length = vectorDim ∧ l2norm (generateEmbedding 0) = 1 :=
  ⟨(fallback_embedding_spec 0).2.1, (fallback_embedding_spec 0).2.2⟩

/-! Vector search: size bound, exclusion of unembedded chunks, sortedness. -/

theorem mem_scored_spec (store : List MemoryChunk) (queryVector : List ℝ) :
    ∀ p ∈ (store.filterMap fun c =>
        match c.embedding with
        | some e => if e.isEmpty then none else some (cosineSimilarity queryVector e, c)
        | none => none),
      ∃ e, p.2.embedding = some e ∧ p.1 = cosineSimilarity queryVector e := by
  intro p hp
  obtain ⟨c, _, hfc⟩ := List.mem_filterMap.mp hp
  rcases hemb : c.embedding with _ | e
  · rw [hemb] at hfc
    simp at hfc
  · rw [hemb] at hfc
    by_cases he : e.isEmpty
    · simp [he] at hfc
    · simp only [he, Bool.false_eq_true, if_false] at hfc
      cases hfc
      exact ⟨e, hemb, rfl⟩

/-- C9: `search(queryVector, k)` on the in-memory vector store returns at
most k chunks, every returned chunk has an embedding, and the cosine
similarity scores of the returned sequence are non-increasing from first to
last. -/
theorem vector_search_spec (store : List MemoryChunk) (queryVector : List ℝ) (k : ℕ) :
    (searchMemory store queryVector k).length ≤ k ∧
    (∀ c ∈ searchMemory store queryVector k, c.embedding ≠ none) ∧
    List.Sorted (fun a b => b ≤ a)
      ((searchMemory store queryVector k).map
        fun c => cosineSimilarity queryVector (c.embedding.getD [])) := by
  have hsm : searchMemory store queryVector k =
      (((store.filterMap fun c =>
          match c.embedding with
          | some e => if e.isEmpty then none else some (cosineSimilarity queryVector e, c)
          | none => none).insertionSort byScoreDesc).take k).map Prod.snd := rfl
  set scored := store.filterMap fun c =>
    match c.embedding with
    | some e => if e.isEmpty then none else some (cosineSimilarity queryVector e, c)
    | none => none with hscored
  have hpair := mem_scored_spec store queryVector
  have hperm := List.perm_insertionSort byScoreDesc scored
  have hpairSort : ∀ p ∈ scored.insertionSort byScoreDesc,
      ∃ e, p.2.embedding = some e ∧ p.1 = cosineSimilarity queryVector e :=
    fun p hp => hpair p (hperm.subset hp)
  have hpairTake : ∀ p ∈ (scored.insertionSort byScoreDesc).take k,
      ∃ e, p.2.embedding = some e ∧ p.1 = cosineSimilarity queryVector e :=
    fun p hp => hpairSort p (List.take_subset k _ hp)
  refine ⟨?_, ?_, ?_⟩
  · rw [hsm, List.length_map]
    exact List.length_take_le k _
  · intro c hc
    rw [hsm] at hc
    obtain ⟨p, hp, rfl⟩ := List.mem_map.mp hc
    obtain ⟨e, he, _⟩ := hpairTake p hp
    simp [he]
  · have hsorted : List.Sorted byScoreDesc (scored.insertionSort byScoreDesc) :=
      List.sorted_insertionSort byScoreDesc scored
    have htake : List.Pairwise byScoreDesc ((scored.insertionSort byScoreDesc).take k) :=
      List.Pairwise.sublist (List.take_sublist k _) hsorted
    have hkey : List.Pairwise
        (fun a b : ℝ × MemoryChunk =>
          cosineSimilarity queryVector (b.2.embedding.getD []) ≤
            cosineSimilarity queryVector (a.2.embedding.getD []))
        ((scored.insertionSort byScoreDesc).take k) := by
      refine List.Pairwise.imp_of_mem ?_ htake
      intro a b ha hb hr
      obtain ⟨ea, hea, ha1⟩ := hpairTake a ha
      obtain ⟨eb, heb, hb1⟩ := hpairTake b hb
      rw [hea, heb]
      simp only [Option.getD_some]
      rw [← ha1, ← hb1]
      exact hr
    rw [hsm, List.map_map]
    exact List.pairwise_map.mpr hkey

/-- Witness for C9 on the empty store. -/
theorem vector_search_spec_witness : (searchMemory [] [] 1).length ≤ 1 :=
  (vector_search_spec [] [] 1).1

end DMMR
